import Mathlib

/-!
Shallow embedding of the sketchy library (Rust) core: the double-hashing
index generator (src/hash.rs), the Count-Min Sketch (src/countmin.rs), the
Bloom filter (src/bloomfilter.rs) and the Top-K structure (src/topk.rs).

Modelling conventions:
* u64 machine integers are modelled as `ℕ`, with an explicit `% 2 ^ 64`
  wherever the source relies on wrapping (`wrapping_add`, `wrapping_mul`,
  release-mode `-`).  Counter increments (`+=` on `u64`) are modelled as
  unbounded `ℕ` addition: Rust defines the overflowing execution as a
  program error, so the non-panicking executions coincide with `ℕ`.
* The element type is abstract; an element enters the code only through its
  two SipHash results (`hash1`, `hash2` in src/hash.rs), so the hasher is
  modelled as an arbitrary function `hash : α → ℕ × ℕ` producing the two
  64-bit hash values.
* `f64` probabilities are modelled as exact rationals `ℚ`; the decimal
  literals of the `PROBS` table are carried over verbatim.
* Fallible or panicking operations (`.unwrap()` on an empty minimum,
  indexing an empty vector) return `Option`.
* `Vec`/`BitVec` are modelled as `List`; out-of-range reads use `getD`
  with the default only in states the corresponding claims exclude.
* `HashSet` (Top-K candidate set) is modelled as a duplicate-free list,
  recording one possible iteration order.
-/

namespace Sketchy

/-- The modulus of `u64` arithmetic. -/
def U64 : ℕ := 2 ^ 64

/-- `u64` wrapping subtraction: `a.wrapping_sub b` (release-mode `a - b`). -/
def wsub (a b : ℕ) : ℕ := (a % U64 + (U64 - b % U64)) % U64

/-! ### src/hash.rs -/

/-- State of the double-hashing generator (`struct Index` in src/hash.rs):
two 64-bit hashes, the bound `max` and the draw counter `i`. -/
structure Index where
  h1 : ℕ
  h2 : ℕ
  max : ℕ
  i : ℕ
deriving DecidableEq

/-- `indexes(e, max)` (src/hash.rs): the element enters only through its two
hash values `h1`, `h2`; the counter starts at 0. -/
def indexes (h1 h2 max : ℕ) : Index :=
  ⟨h1, h2, max, 0⟩

/-- `Index::next` (src/hash.rs): `self.i += 1;
Some((h1.wrapping_add(i.wrapping_mul(h2)) % max) as usize)`.  Always `some`. -/
def Index.next (g : Index) : Option ℕ × Index :=
  let i := (g.i + 1) % U64
  (some (((g.h1 + (i * g.h2) % U64) % U64) % g.max), ⟨g.h1, g.h2, g.max, i⟩)

/-- The generator after `n` calls to `next`. -/
def Index.advance (g : Index) : ℕ → Index
  | 0 => g
  | n + 1 => (Index.next (g.advance n)).2

/-- The value produced by the `n`-th call to `next` (`n ≥ 1`). -/
def Index.nthDraw (g : Index) (n : ℕ) : Option ℕ :=
  (Index.next (g.advance (n - 1))).1

/-- Closed form of the `n`-th draw from a fresh generator: the value of the
`n`-th `next` of `indexes h1 h2 max`. -/
def drawAt (h : ℕ × ℕ) (max n : ℕ) : ℕ :=
  ((h.1 + (n * h.2) % U64) % U64) % max

/-! ### Generic list helpers used by the embedding -/

/-- `Iterator::min` over the collected values (as in `estimate`):
`none` on an empty iterator, otherwise the least value. -/
def iterMin : List ℕ → Option ℕ
  | [] => none
  | x :: xs => some (xs.foldl min x)

/-- Insert `x` into a list sorted by `le` (helper for `sortBy`). -/
def sortedInsert {β : Type} (le : β → β → Bool) (x : β) : List β → List β
  | [] => [x]
  | y :: ys => if le x y then x :: y :: ys else y :: sortedInsert le x ys

/-- Stable insertion sort, modelling Rust's stable `sort`/`sort_by`. -/
def sortBy {β : Type} (le : β → β → Bool) (l : List β) : List β :=
  l.foldr (sortedInsert le) []

/-! ### src/countmin.rs -/

/-- `CountMinSketch`: `depth × width` matrix of `u64` counters. -/
structure CountMinSketch where
  depth : ℕ
  width : ℕ
  counters : List (List ℕ)
deriving DecidableEq

/-- `CountMinSketch::new(depth, width)`: counters all zero; no validation of
any kind is performed on `depth` or `width`. -/
def CountMinSketch.new (depth width : ℕ) : CountMinSketch :=
  ⟨depth, width, List.replicate depth (List.replicate width 0)⟩

/-- Read `counters[i][j]` (only used in-range by the source). -/
def getCell (m : List (List ℕ)) (i j : ℕ) : ℕ :=
  (m.getD i []).getD j 0

/-- Write `counters[i][j] = v`. -/
def setCell (m : List (List ℕ)) (i j : ℕ) (v : ℕ) : List (List ℕ) :=
  m.set i ((m.getD i []).set j v)

/-- Column selected for row `i` of an element with hash pair `h`:
the `(i+1)`-st draw of the generator, bounded by `width`
(the iterator's first `next` uses counter value 1). -/
def colOf (h : ℕ × ℕ) (width i : ℕ) : ℕ :=
  drawAt h width (i + 1)

/-- One iteration of the `insert_n` loop: `self.counters[i][idx] += n`. -/
def insStep (col : ℕ → ℕ) (nadd : ℕ) (m : List (List ℕ)) (i : ℕ) : List (List ℕ) :=
  setCell m i (col i) (getCell m i (col i) + nadd)

/-- `CountMinSketch::insert_n(e, n)` (src/countmin.rs): one draw per row,
each row's selected counter incremented by `n`. -/
def CountMinSketch.insertN {α : Type} (hash : α → ℕ × ℕ) (s : CountMinSketch)
    (e : α) (n : ℕ) : CountMinSketch :=
  ⟨s.depth, s.width,
    (List.range s.depth).foldl (insStep (colOf (hash e) s.width) n) s.counters⟩

/-- `CountMinSketch::insert(e)` = `insert_n(e, 1)`. -/
def CountMinSketch.insert {α : Type} (hash : α → ℕ × ℕ) (s : CountMinSketch)
    (e : α) : CountMinSketch :=
  s.insertN hash e 1

/-- The row counters selected by `e`'s draws (the values the `estimate`
iterator chain maps over). -/
def CountMinSketch.rowVals {α : Type} (hash : α → ℕ × ℕ) (s : CountMinSketch)
    (e : α) : List ℕ :=
  (List.range s.depth).map (fun i => getCell s.counters i (colOf (hash e) s.width i))

/-- `CountMinSketch::estimate(e)`: minimum across rows; the source's
`.min().unwrap()` panic on an empty iterator (depth 0) is modelled by
`none`. -/
def CountMinSketch.estimate? {α : Type} (hash : α → ℕ × ℕ) (s : CountMinSketch)
    (e : α) : Option ℕ :=
  iterMin (s.rowVals hash e)

/-- `CountMinSketch::estimate_mean(e, n)` (src/countmin.rs): per-row
noise-corrected values, sorted, then the median.  The source subtracts with
plain `u64` arithmetic, modelled as wrapping subtraction mod `2 ^ 64`
(Rust release-mode semantics; debug builds panic on the same inputs).
The `values[...]` indexing (getD here) and the division by `width - 1`
are only reached in-range for `depth ≥ 1`, `width ≥ 2`, the regime of the
corresponding claim. -/
def CountMinSketch.estimateMean {α : Type} (hash : α → ℕ × ℕ) (s : CountMinSketch)
    (e : α) (n : ℕ) : ℕ :=
  let values := sortBy (fun a b => decide (a ≤ b))
    ((List.range s.depth).map (fun i =>
      let v := getCell s.counters i (colOf (hash e) s.width i)
      let noise := wsub n v / (s.width - 1)
      wsub v noise))
  if values.length % 2 = 0 then
    (values.getD (values.length / 2) 0 + values.getD (values.length / 2 - 1) 0) / 2
  else
    values.getD (values.length / 2) 0

/-- The C5 claim's reading of `estimate_mean`: identical to
`CountMinSketch.estimateMean` except that both subtractions saturate at
zero (truncated `ℕ` subtraction), as the spec sentence prescribes.  This
definition follows the claim's words, not the source, and exists to be
compared with the source-derived definition. -/
def CountMinSketch.estimateMeanSat {α : Type} (hash : α → ℕ × ℕ) (s : CountMinSketch)
    (e : α) (n : ℕ) : ℕ :=
  let values := sortBy (fun a b => decide (a ≤ b))
    ((List.range s.depth).map (fun i =>
      let v := getCell s.counters i (colOf (hash e) s.width i)
      let noise := (n - v) / (s.width - 1)
      v - noise))
  if values.length % 2 = 0 then
    (values.getD (values.length / 2) 0 + values.getD (values.length / 2 - 1) 0) / 2
  else
    values.getD (values.length / 2) 0

/-- `CountMinSketch::merge` (src/countmin.rs): counters replaced by the
zip of element-wise sums. -/
def CountMinSketch.merge (s o : CountMinSketch) : CountMinSketch :=
  ⟨s.depth, s.width,
    List.zipWith (fun r1 r2 => List.zipWith (fun a b => a + b) r1 r2) s.counters o.counters⟩

/-- A sequence of mutations on a sketch (`insert e` is `insertN e 1`). -/
inductive CMSOp (α : Type) where
  | insertN (e : α) (n : ℕ)

/-- Apply a sequence of insert/insert_n operations. -/
def CountMinSketch.applyOps {α : Type} (hash : α → ℕ × ℕ) (s : CountMinSketch) :
    List (CMSOp α) → CountMinSketch
  | [] => s
  | CMSOp.insertN e n :: ops => (s.insertN hash e n).applyOps hash ops

/-- The true total count inserted for `e` by a sequence of operations. -/
def trueCount {α : Type} [DecidableEq α] (e : α) : List (CMSOp α) → ℕ
  | [] => 0
  | CMSOp.insertN x n :: ops => (if x = e then n else 0) + trueCount e ops

/-- Shape invariant of the counter matrix: `depth` rows of `width` columns. -/
def SameShape (d w : ℕ) (m : List (List ℕ)) : Prop :=
  m.length = d ∧ ∀ r ∈ m, r.length = w

/-! ### src/bloomfilter.rs: parameter table and search -/

/-- The `OPT_K` table (src/bloomfilter.rs). -/
def OPT_K : List ℕ :=
  [1, 1, 1, 2, 3, 3, 4, 5, 5, 6, 7, 8, 8, 9, 10, 10, 11, 12, 12, 13, 14]

/-- The `PROBS` table (src/bloomfilter.rs), with the `f64` literals carried
over as exact rationals. -/
def PROBS : List (List ℚ) :=
  [[1.0],
   [1.0, 1.0],
   [1.0, 0.393, 0.400],
   [1.0, 0.283, 0.237, 0.253],
   [1.0, 0.221, 0.155, 0.147, 0.1600],
   [1.0, 0.181, 0.109, 0.092, 0.092, 0.101],
   [1.0, 0.154, 0.0804, 0.0609, 0.0561, 0.0578, 0.0638],
   [1.0, 0.133, 0.0618, 0.0423, 0.0359, 0.0347, 0.0364],
   [1.0, 0.118, 0.0489, 0.0306, 0.024, 0.0217, 0.0216, 0.0229],
   [1.0, 0.105, 0.0397, 0.0228, 0.0166, 0.0141, 0.0133, 0.0135, 0.0145],
   [1.0, 0.0952, 0.0329, 0.0174, 0.0118, 0.00943, 0.00844, 0.00819, 0.00846],
   [1.0, 0.0869, 0.0276, 0.0136, 0.00864, 0.0065, 0.00552, 0.00513, 0.00509],
   [1.0, 0.08, 0.0236, 0.0108, 0.00646, 0.00459, 0.00371, 0.00329, 0.00314],
   [1.0, 0.074, 0.0203, 0.00875, 0.00492, 0.00332, 0.00255, 0.00217, 0.00199, 0.00194],
   [1.0, 0.0689, 0.0177, 0.00718, 0.00381, 0.00244, 0.00179, 0.00146, 0.00129, 0.00121, 0.0012],
   [1.0, 0.0645, 0.0156, 0.00596, 0.003, 0.00183, 0.00128, 0.001, 0.000852, 0.000775, 0.000744],
   [1.0, 0.0606, 0.0138, 0.005, 0.00239, 0.00139, 0.000935, 0.000702, 0.000574, 0.000505, 0.00047, 0.000459],
   [1.0, 0.0571, 0.0123, 0.00423, 0.00193, 0.00107, 0.000692, 0.000499, 0.000394, 0.000335, 0.000302, 0.000287, 0.000284],
   [1.0, 0.054, 0.0111, 0.00362, 0.00158, 0.000839, 0.000519, 0.00036, 0.000275, 0.000226, 0.000198, 0.000183, 0.000176],
   [1.0, 0.0513, 0.00998, 0.00312, 0.0013, 0.000663, 0.000394, 0.000264, 0.000194, 0.000155, 0.000132, 0.000118, 0.000111, 0.000109],
   [1.0, 0.0488, 0.00906, 0.0027, 0.00108, 0.00053, 0.000303, 0.000196, 0.00014, 0.000108, 8.89e-5, 7.77e-5, 7.12e-5, 6.79e-5, 6.71e-5]]

def MAX_BUCKETS : ℕ := 15
def MIN_BUCKETS : ℕ := 2
def MIN_K : ℕ := 1
def MAX_K : ℕ := 8

/-- `PROBS[b][k]`; every access the source performs is in-range, so the
default is never read on reachable paths. -/
def probsAt (b k : ℕ) : ℚ := (PROBS.getD b []).getD k 1

/-- `OPT_K[b]`; in-range for every reachable access. -/
def optK (b : ℕ) : ℕ := OPT_K.getD b 1

/-- The buckets-search `while` loop of `best_buckets_and_k`, fuel-indexed:
`while PROBS[buckets][k] > p { buckets += 1; k = OPT_K[buckets]; }`,
returning `(buckets, k)` at exit.  In the only branch that runs it
(`PROBS[15][8] ≤ p < PROBS[2][1]`) the loop provably stops by
`buckets = 15`, so fuel 19 is never exhausted. -/
def findLoop (p : ℚ) : ℕ → ℕ → ℕ → ℕ × ℕ
  | 0, b, k => (b, k)
  | fuel + 1, b, k =>
    if probsAt b k > p then findLoop p fuel (b + 1) (optK (b + 1)) else (b, k)

/-- The k-relaxation `while` loop of `best_buckets_and_k`:
`while PROBS[buckets][k-1] <= p { k -= 1; }`. -/
def relaxK (p : ℚ) (b : ℕ) : ℕ → ℕ
  | 0 => 0
  | k + 1 => if probsAt b k ≤ p then relaxK p b k else k + 1

/-- `best_buckets_and_k` (src/bloomfilter.rs).  Note the source's second
trivial case literally returns `(MAX_K, MAX_BUCKETS)`, i.e. `(8, 15)`,
although the function's return convention is `(buckets, k)`. -/
def bestBucketsAndK (p : ℚ) : ℕ × ℕ :=
  if p ≥ probsAt MIN_BUCKETS MIN_K then (2, optK 2)
  else if p < probsAt MAX_BUCKETS MAX_K then (MAX_K, MAX_BUCKETS)
  else ((findLoop p 19 2 (optK 2)).1,
    relaxK p (findLoop p 19 2 (optK 2)).1 (findLoop p 19 2 (optK 2)).2)

/-! ### src/bloomfilter.rs: the filter -/

/-- `BloomFilter`: the draw count `k` and the bit array. -/
structure BloomFilter where
  k : ℕ
  bits : List Bool
deriving DecidableEq

/-- `BloomFilter::new(n, max_false_pos_prob)`: bit array of length
`n * buckets + 20`, all false; no validation of the probability. -/
def BloomFilter.new (n : ℕ) (p : ℚ) : BloomFilter :=
  ⟨(bestBucketsAndK p).2, List.replicate (n * (bestBucketsAndK p).1 + 20) false⟩

/-- The `k` indices drawn by one insert/contains:
`indexes(e, bits.len()).take(k)` (draws 1 through `k`). -/
def bfDraws (h : ℕ × ℕ) (len k : ℕ) : List ℕ :=
  (List.range k).map (fun j => drawAt h len (j + 1))

/-- `BloomFilter::insert(e)`: set each drawn bit. -/
def BloomFilter.insert {α : Type} (hash : α → ℕ × ℕ) (b : BloomFilter) (e : α) :
    BloomFilter :=
  ⟨b.k, (bfDraws (hash e) b.bits.length b.k).foldl (fun bs i => bs.set i true) b.bits⟩

/-- `BloomFilter::contains(e)`: true iff every drawn bit is set.  The
source's `bits.get(i).unwrap()` read is in-range whenever the bit array is
nonempty (established separately); `getD` with default false models it. -/
def BloomFilter.contains {α : Type} (hash : α → ℕ × ℕ) (b : BloomFilter) (e : α) :
    Bool :=
  (bfDraws (hash e) b.bits.length b.k).all (fun i => b.bits.getD i false)

/-- `BloomFilter::merge(other)`: requires `k` equality (source `assert_eq!`)
and equal bit lengths (asserted inside `BitVec::union`); computes the
bitwise union in place and reports whether the bits changed. -/
def BloomFilter.merge (s o : BloomFilter) : BloomFilter × Bool :=
  let newBits := List.zipWith (fun x y => x || y) s.bits o.bits
  (⟨s.k, newBits⟩, decide (newBits ≠ s.bits))

/-- A sequence of mutations on a Bloom filter. -/
inductive BFOp (α : Type) where
  | ins (e : α)
  | mer (other : BloomFilter)

/-- Apply a sequence of insert/merge operations. -/
def BloomFilter.applyOps {α : Type} (hash : α → ℕ × ℕ) (b : BloomFilter) :
    List (BFOp α) → BloomFilter
  | [] => b
  | BFOp.ins e :: ops => (b.insert hash e).applyOps hash ops
  | BFOp.mer o :: ops => (b.merge o).1.applyOps hash ops

/-! ### src/topk.rs -/

/-- `TopK`: capacity `k`, threshold `min`, total insert counter `n`, the
underlying sketch, and the candidate set (a `HashSet`, modelled as a
duplicate-free list carrying one possible iteration order). -/
structure TopK (α : Type) where
  k : ℕ
  min : ℚ
  n : ℕ
  cms : CountMinSketch
  elements : List α

/-- `TopK::new(k, min, cms)`: counter 0, empty candidate set; no validation
of `k` or `min`. -/
def TopK.new {α : Type} (k : ℕ) (min : ℚ) (cms : CountMinSketch) : TopK α :=
  ⟨k, min, 0, cms, []⟩

/-- `TopK::is_top(e)`: `estimate(e) as f64 / n as f64 > min`, the `f64`
division modelled exactly over `ℚ`; `none` when `estimate` would panic
(depth-0 sketch). -/
def TopK.isTop? {α : Type} (hash : α → ℕ × ℕ) (t : TopK α) (e : α) : Option Bool :=
  (t.cms.estimate? hash e).map (fun v : ℕ => decide ((v : ℚ) / (t.n : ℚ) > t.min))

/-- `TopK::insert(e)` (src/topk.rs): feed the sketch, bump `n`, then re-test
the share and add `e` to the candidate set if it exceeds `min`
(`HashSet::insert`: no effect when already present). -/
def TopK.insert? {α : Type} [DecidableEq α] (hash : α → ℕ × ℕ) (t : TopK α)
    (e : α) : Option (TopK α) :=
  let t1 : TopK α := ⟨t.k, t.min, t.n + 1, t.cms.insert hash e, t.elements⟩
  (t1.isTop? hash e).map (fun b =>
    if b then
      ⟨t1.k, t1.min, t1.n, t1.cms,
        if e ∈ t1.elements then t1.elements else e :: t1.elements⟩
    else t1)

/-- The filter pass of `TopK::elements()`: keep the candidates that still
pass `is_top` at call time. -/
def TopK.filterTop? {α : Type} (hash : α → ℕ × ℕ) (t : TopK α) :
    List α → Option (List α)
  | [] => some []
  | x :: xs =>
    match t.isTop? hash x, t.filterTop? hash xs with
    | some b, some rest => some (if b then x :: rest else rest)
    | _, _ => none

/-- Sort key used by `elements()`'s comparator (`cms.estimate`); in the
depth-≥-1 regime of the claims the `getD 0` default is never used. -/
def TopK.estKey {α : Type} (hash : α → ℕ × ℕ) (t : TopK α) (x : α) : ℕ :=
  (t.cms.estimate? hash x).getD 0

/-- `TopK::elements()` (src/topk.rs): filter the candidate set by `is_top`,
sort by descending estimated frequency (stably), truncate to `k`. -/
def TopK.elementsList? {α : Type} (hash : α → ℕ × ℕ) (t : TopK α) :
    Option (List α) :=
  (t.filterTop? hash t.elements).map (fun l =>
    (sortBy (fun a b => decide (t.estKey hash b ≤ t.estKey hash a)) l).take t.k)

/-- `TopK::shrink_to_fit()` (src/topk.rs): when the candidate set exceeds
`k` entries, replace it by the result of `elements()`. -/
def TopK.shrinkToFit? {α : Type} (hash : α → ℕ × ℕ) (t : TopK α) :
    Option (TopK α) :=
  if t.k < t.elements.length then
    (t.elementsList? hash).map (fun l => ⟨t.k, t.min, t.n, t.cms, l⟩)
  else some t

/-! ## Lemma layer -/

/-- Reading after writing a list cell, with the out-of-range cases. -/
theorem getD_set_eval {β : Type} (l : List β) (i p : ℕ) (v d : β) :
    (l.set i v).getD p d = if p = i ∧ i < l.length then v else l.getD p d := by
  rw [List.getD_eq_getElem?_getD, List.getD_eq_getElem?_getD, List.getElem?_set]
  by_cases h1 : i = p
  · subst h1
    by_cases h2 : i < l.length
    · simp [h2]
    · simp [h2, List.getElem?_eq_none (le_of_not_lt h2)]
  · rw [if_neg h1, if_neg (fun h : p = i ∧ i < l.length => h1 (And.left h).symm)]

/-- A list's `getD` at an in-range index of a `zipWith` of equal-length
lists distributes over the zip. -/
theorem getD_zipWith_eval {β : Type} (f : β → β → β) (d : β) :
    ∀ (l1 l2 : List β) (p : ℕ), l1.length = l2.length → p < l1.length →
      (List.zipWith f l1 l2).getD p d = f (l1.getD p d) (l2.getD p d) := by
  intro l1
  induction l1 with
  | nil => intro l2 p _ hp; cases hp
  | cons x xs ih =>
    intro l2 p hlen hp
    cases l2 with
    | nil => cases hlen
    | cons y ys =>
      cases p with
      | zero => rfl
      | succ q =>
        have hlen' : xs.length = ys.length := by
          simpa using hlen
        have hq : q < xs.length := by
          simpa using hp
        simpa using ih ys q hlen' hq

/-- Out-of-range `getD` yields the default. -/
theorem getD_eq_default {β : Type} (l : List β) (p : ℕ) (d : β)
    (h : l.length ≤ p) : l.getD p d = d := by
  rw [List.getD_eq_getElem?_getD, List.getElem?_eq_none h]
  rfl

/-- The running fold of `Iterator::min` is below its initial value. -/
theorem foldlMin_le_init (xs : List ℕ) : ∀ x : ℕ, xs.foldl min x ≤ x := by
  induction xs with
  | nil => intro x; exact le_refl x
  | cons y ys ih => intro x; exact le_trans (ih (min x y)) (min_le_left x y)

/-- The running fold of `Iterator::min` is below every list element. -/
theorem foldlMin_le_mem (xs : List ℕ) : ∀ x a : ℕ, a ∈ xs → xs.foldl min x ≤ a := by
  induction xs with
  | nil => intro x a ha; cases ha
  | cons y ys ih =>
    intro x a ha
    rcases List.mem_cons.mp ha with rfl | ha
    · exact le_trans (foldlMin_le_init ys (min x a)) (min_le_right x a)
    · exact ih (min x y) a ha

/-- The running fold of `Iterator::min` is the initial value or a list
element. -/
theorem foldlMin_mem (xs : List ℕ) : ∀ x : ℕ, xs.foldl min x = x ∨ xs.foldl min x ∈ xs := by
  induction xs with
  | nil => intro x; exact Or.inl rfl
  | cons y ys ih =>
    intro x
    rcases ih (min x y) with h | h
    · rcases min_choice x y with hm | hm
      · exact Or.inl (by rw [List.foldl_cons, h, hm])
      · refine Or.inr ?_
        rw [List.foldl_cons, h, hm]
        exact List.mem_cons_self y ys
    · exact Or.inr (List.mem_cons_of_mem y h)

/-- `iterMin` of a nonempty list: it exists, is a member and is least. -/
theorem iterMin_spec (l : List ℕ) (hl : l ≠ []) :
    ∃ m, iterMin l = some m ∧ m ∈ l ∧ ∀ x ∈ l, m ≤ x := by
  cases l with
  | nil => exact absurd rfl hl
  | cons x xs =>
    refine ⟨xs.foldl min x, rfl, ?_, ?_⟩
    · rcases foldlMin_mem xs x with h | h
      · rw [h]; exact List.mem_cons_self x xs
      · exact List.mem_cons_of_mem x h
    · intro a ha
      rcases List.mem_cons.mp ha with rfl | ha
      · exact foldlMin_le_init xs a
      · exact foldlMin_le_mem xs x a ha

/-- Membership through `sortedInsert`. -/
theorem mem_sortedInsert {β : Type} (le : β → β → Bool) (x a : β) :
    ∀ l : List β, a ∈ sortedInsert le x l ↔ a = x ∨ a ∈ l := by
  intro l
  induction l with
  | nil => simp [sortedInsert]
  | cons y ys ih =>
    rw [sortedInsert]
    cases h : le x y
    · rw [if_neg (by simp [h])]
      simp only [List.mem_cons, ih]
      tauto
    · rw [if_pos (by simp [h])]
      simp only [List.mem_cons]

/-- `sortedInsert` adds exactly one element. -/
theorem length_sortedInsert {β : Type} (le : β → β → Bool) (x : β) :
    ∀ l : List β, (sortedInsert le x l).length = l.length + 1 := by
  intro l
  induction l with
  | nil => rfl
  | cons y ys ih =>
    rw [sortedInsert]
    by_cases h : le x y
    · simp [h]
    · simp [h, ih]

/-- `sortBy` permutes: same members. -/
theorem mem_sortBy {β : Type} (le : β → β → Bool) (a : β) :
    ∀ l : List β, a ∈ sortBy le l ↔ a ∈ l := by
  intro l
  induction l with
  | nil => simp [sortBy]
  | cons y ys ih =>
    rw [sortBy, List.foldr_cons]
    rw [show ys.foldr (sortedInsert le) [] = sortBy le ys from rfl] at *
    rw [mem_sortedInsert]
    simp [ih]

/-- `sortBy` preserves length. -/
theorem length_sortBy {β : Type} (le : β → β → Bool) :
    ∀ l : List β, (sortBy le l).length = l.length := by
  intro l
  induction l with
  | nil => rfl
  | cons y ys ih =>
    rw [sortBy, List.foldr_cons]
    rw [show ys.foldr (sortedInsert le) [] = sortBy le ys from rfl]
    rw [length_sortedInsert, ih]
    rfl

/-! ### Lemmas about the index generator -/

/-- After `m` calls to `next`, a fresh generator holds counter `m % 2^64`
and its hashes and bound are untouched. -/
theorem advance_indexes (h1 h2 max : ℕ) :
    ∀ m : ℕ, Index.advance (indexes h1 h2 max) m = ⟨h1, h2, max, m % U64⟩ := by
  intro m
  induction m with
  | zero => simp [Index.advance, indexes]
  | succ n ih =>
    rw [Index.advance, ih, Index.next]
    simp only [Prod.snd]
    congr 1
    exact Nat.mod_add_mod n U64 1

/-- The `n`-th draw of a fresh generator (`n ≥ 1`) in closed form. -/
theorem nthDraw_indexes (h1 h2 max n : ℕ) (hn : 1 ≤ n) :
    (indexes h1 h2 max).nthDraw n = some (drawAt (h1, h2) max n) := by
  have key : ((n - 1) % U64 + 1) % U64 * h2 % U64 = n * h2 % U64 := by
    calc ((n - 1) % U64 + 1) % U64 * h2 % U64
        = ((n - 1) % U64 + 1) * h2 % U64 := Nat.mod_mul_mod
      _ = n % U64 * h2 % U64 := by
          rw [← Nat.mod_mul_mod]
          congr 2
          rw [Nat.mod_add_mod]
          congr 1
          omega
      _ = n * h2 % U64 := Nat.mod_mul_mod
  rw [Index.nthDraw, advance_indexes]
  simp only [Index.next, drawAt]
  rw [key]

/-! ### Lemmas about the Count-Min Sketch -/

/-- Reading any cell after writing one cell. -/
theorem getCell_setCell (m : List (List ℕ)) (i j iq jq v : ℕ) :
    getCell (setCell m i j v) iq jq =
      if iq = i ∧ jq = j ∧ i < m.length ∧ j < (m.getD i []).length then v
      else getCell m iq jq := by
  unfold getCell setCell
  rw [getD_set_eval]
  by_cases hio : iq = i ∧ i < m.length
  · rw [if_pos hio]
    obtain ⟨rfl, hil⟩ := hio
    rw [getD_set_eval]
    by_cases hjo : jq = j ∧ j < (m.getD iq []).length
    · rw [if_pos hjo, if_pos ⟨rfl, hjo.1, hil, hjo.2⟩]
    · rw [if_neg hjo, if_neg (fun h => hjo ⟨h.2.1, h.2.2.2⟩)]
  · rw [if_neg hio, if_neg (fun h => hio ⟨h.1, h.2.2.1⟩)]

/-- `setCell` does not change the number of rows. -/
theorem length_setCell (m : List (List ℕ)) (i j v : ℕ) :
    (setCell m i j v).length = m.length :=
  List.length_set m i _

/-- `setCell` preserves the matrix shape. -/
theorem sameShape_setCell {d w : ℕ} {m : List (List ℕ)} (hs : SameShape d w m)
    (i j v : ℕ) : SameShape d w (setCell m i j v) := by
  obtain ⟨hlen, hrows⟩ := hs
  by_cases hi : i < m.length
  · refine ⟨by rw [length_setCell, hlen], ?_⟩
    intro r hr
    rcases List.mem_or_eq_of_mem_set hr with hr | rfl
    · exact hrows r hr
    · rw [List.length_set, List.getD_eq_getElem m [] hi]
      exact hrows _ (List.getElem_mem hi)
  · rw [setCell, List.set_eq_of_length_le (le_of_not_lt hi)]
    exact ⟨hlen, hrows⟩

/-- A single `insert_n` loop iteration never decreases any cell. -/
theorem insStep_getCell_mono (col : ℕ → ℕ) (nadd : ℕ) (m : List (List ℕ))
    (a i j : ℕ) : getCell m i j ≤ getCell (insStep col nadd m a) i j := by
  rw [insStep, getCell_setCell]
  split_ifs with h
  · obtain ⟨rfl, rfl, -, -⟩ := h
    exact Nat.le_add_right _ _
  · exact le_refl _

/-- The whole `insert_n` loop never decreases any cell. -/
theorem foldl_insStep_mono (col : ℕ → ℕ) (nadd : ℕ) :
    ∀ (L : List ℕ) (m : List (List ℕ)) (i j : ℕ),
      getCell m i j ≤ getCell (L.foldl (insStep col nadd) m) i j := by
  intro L
  induction L with
  | nil => intro m i j; exact le_refl _
  | cons a L ih =>
    intro m i j
    exact le_trans (insStep_getCell_mono col nadd m a i j) (ih _ i j)

/-- A loop iteration for row `a` leaves every other row unchanged. -/
theorem insStep_getCell_other (col : ℕ → ℕ) (nadd : ℕ) (m : List (List ℕ))
    (a i j : ℕ) (h : i ≠ a) :
    getCell (insStep col nadd m a) i j = getCell m i j := by
  rw [insStep, getCell_setCell, if_neg (fun hc => h hc.1)]

/-- Rows not visited by the loop are unchanged. -/
theorem foldl_insStep_other (col : ℕ → ℕ) (nadd : ℕ) :
    ∀ (L : List ℕ) (m : List (List ℕ)) (i j : ℕ), i ∉ L →
      getCell (L.foldl (insStep col nadd) m) i j = getCell m i j := by
  intro L
  induction L with
  | nil => intro m i j _; rfl
  | cons a L ih =>
    intro m i j hni
    rw [List.foldl_cons, ih _ i j (fun hm => hni (List.mem_cons_of_mem a hm)),
      insStep_getCell_other _ _ _ _ _ _
        (fun he => hni (by rw [he]; exact List.mem_cons_self a L))]

/-- A loop iteration preserves the matrix shape. -/
theorem insStep_shape {d w : ℕ} {m : List (List ℕ)} (hs : SameShape d w m)
    (col : ℕ → ℕ) (nadd a : ℕ) : SameShape d w (insStep col nadd m a) :=
  sameShape_setCell hs a _ _

/-- The whole loop preserves the matrix shape. -/
theorem foldl_insStep_shape {d w : ℕ} (col : ℕ → ℕ) (nadd : ℕ) :
    ∀ (L : List ℕ) (m : List (List ℕ)), SameShape d w m →
      SameShape d w (L.foldl (insStep col nadd) m) := by
  intro L
  induction L with
  | nil => intro m hs; exact hs
  | cons a L ih =>
    intro m hs
    exact ih _ (insStep_shape hs col nadd a)

/-- Visiting each row once, the loop adds exactly `nadd` to row `i`'s
selected cell. -/
theorem foldl_insStep_at {d w : ℕ} (col : ℕ → ℕ) (nadd : ℕ)
    (hcol : ∀ i, col i < w) :
    ∀ (L : List ℕ) (m : List (List ℕ)), SameShape d w m → L.Nodup →
      ∀ i ∈ L, i < d →
        getCell (L.foldl (insStep col nadd) m) i (col i)
          = getCell m i (col i) + nadd := by
  intro L
  induction L with
  | nil => intro m _ _ i hi; cases hi
  | cons a L ih =>
    intro m hs hnd i hiL hid
    rcases List.mem_cons.mp hiL with rfl | hiL
    · have hi' : i < m.length := by
        have := hs.1
        omega
      have hcw : col i < (m.getD i []).length := by
        rw [List.getD_eq_getElem m [] hi', hs.2 _ (List.getElem_mem hi')]
        exact hcol i
      rw [List.foldl_cons,
        foldl_insStep_other col nadd L _ i (col i) (List.nodup_cons.mp hnd).1,
        insStep, getCell_setCell, if_pos ⟨rfl, rfl, hi', hcw⟩]
    · have hia : i ≠ a := fun h => (List.nodup_cons.mp hnd).1 (h ▸ hiL)
      rw [List.foldl_cons,
        ih _ (insStep_shape hs col nadd a) (List.nodup_cons.mp hnd).2 i hiL hid,
        insStep_getCell_other col nadd m a i (col i) hia]

/-- Each draw is strictly below the width bound (width ≥ 1). -/
theorem colOf_lt (h : ℕ × ℕ) (w i : ℕ) (hw : 1 ≤ w) : colOf h w i < w :=
  Nat.mod_lt _ (by omega)

/-- `insert_n` preserves the depth field. -/
theorem insertN_depth {α : Type} (hash : α → ℕ × ℕ) (s : CountMinSketch)
    (e : α) (n : ℕ) : (s.insertN hash e n).depth = s.depth := rfl

/-- `insert_n` preserves the width field. -/
theorem insertN_width {α : Type} (hash : α → ℕ × ℕ) (s : CountMinSketch)
    (e : α) (n : ℕ) : (s.insertN hash e n).width = s.width := rfl

/-- `insert_n` preserves the counter-matrix shape. -/
theorem insertN_shape {α : Type} (hash : α → ℕ × ℕ) (s : CountMinSketch)
    (e : α) (n : ℕ) (hs : SameShape s.depth s.width s.counters) :
    SameShape s.depth s.width (s.insertN hash e n).counters :=
  foldl_insStep_shape _ _ _ _ hs

/-- `insert_n e n` adds exactly `n` to each of `e`'s selected cells. -/
theorem insertN_cell_self {α : Type} (hash : α → ℕ × ℕ) (s : CountMinSketch)
    (e : α) (n : ℕ) (hs : SameShape s.depth s.width s.counters)
    (hw : 1 ≤ s.width) (i : ℕ) (hi : i < s.depth) :
    getCell (s.insertN hash e n).counters i (colOf (hash e) s.width i)
      = getCell s.counters i (colOf (hash e) s.width i) + n :=
  foldl_insStep_at _ n (fun q => colOf_lt (hash e) s.width q hw) _ _ hs
    (List.nodup_range s.depth) i (List.mem_range.mpr hi) hi

/-- `insert_n` never decreases any cell. -/
theorem insertN_cell_mono {α : Type} (hash : α → ℕ × ℕ) (s : CountMinSketch)
    (e : α) (n i j : ℕ) :
    getCell s.counters i j ≤ getCell (s.insertN hash e n).counters i j :=
  foldl_insStep_mono _ _ _ _ i j

/-- Operation sequences preserve the depth field. -/
theorem applyOps_depth {α : Type} (hash : α → ℕ × ℕ) (ops : List (CMSOp α)) :
    ∀ s : CountMinSketch, (s.applyOps hash ops).depth = s.depth := by
  induction ops with
  | nil => intro s; rfl
  | cons op ops ih =>
    intro s
    cases op with
    | insertN e n =>
      rw [CountMinSketch.applyOps, ih]
      rfl

/-- Operation sequences preserve the width field. -/
theorem applyOps_width {α : Type} (hash : α → ℕ × ℕ) (ops : List (CMSOp α)) :
    ∀ s : CountMinSketch, (s.applyOps hash ops).width = s.width := by
  induction ops with
  | nil => intro s; rfl
  | cons op ops ih =>
    intro s
    cases op with
    | insertN e n =>
      rw [CountMinSketch.applyOps, ih]
      rfl

/-- Operation sequences preserve the counter-matrix shape. -/
theorem applyOps_shape {α : Type} (hash : α → ℕ × ℕ) (ops : List (CMSOp α)) :
    ∀ s : CountMinSketch, SameShape s.depth s.width s.counters →
      SameShape s.depth s.width (s.applyOps hash ops).counters := by
  induction ops with
  | nil => intro s hs; exact hs
  | cons op ops ih =>
    intro s hs
    cases op with
    | insertN e n =>
      rw [CountMinSketch.applyOps]
      exact ih (s.insertN hash e n) (insertN_shape hash s e n hs)

/-- Across any operation sequence, each of `e`'s selected cells grows by at
least the true total count inserted for `e`. -/
theorem applyOps_cell_lower {α : Type} [DecidableEq α] (hash : α → ℕ × ℕ)
    (e : α) (ops : List (CMSOp α)) :
    ∀ s : CountMinSketch, SameShape s.depth s.width s.counters → 1 ≤ s.width →
      ∀ i, i < s.depth →
        getCell s.counters i (colOf (hash e) s.width i) + trueCount e ops
          ≤ getCell (s.applyOps hash ops).counters i (colOf (hash e) s.width i) := by
  induction ops with
  | nil =>
    intro s _ _ i _
    rw [trueCount]
    exact Nat.le_refl _
  | cons op ops ih =>
    intro s hs hw i hi
    cases op with
    | insertN x n =>
      rw [CountMinSketch.applyOps, trueCount]
      have hs' := insertN_shape hash s x n hs
      have step := ih (s.insertN hash x n) hs' hw i hi
      simp only [insertN_width] at step
      by_cases hx : x = e
      · subst hx
        have hcell := insertN_cell_self hash s x n hs hw i hi
        rw [if_pos rfl]
        omega
      · have hcell := insertN_cell_mono hash s x n i (colOf (hash e) s.width i)
        rw [if_neg hx]
        omega

/-- The estimate iterator visits `depth` rows. -/
theorem rowVals_length {α : Type} (hash : α → ℕ × ℕ) (s : CountMinSketch)
    (e : α) : (s.rowVals hash e).length = s.depth := by
  rw [CountMinSketch.rowVals, List.length_map, List.length_range]

/-- A fresh sketch has the declared shape. -/
theorem new_shape (d w : ℕ) : SameShape d w (CountMinSketch.new d w).counters := by
  refine ⟨List.length_replicate d _, ?_⟩
  intro r hr
  rw [List.eq_of_mem_replicate hr]
  exact List.length_replicate w 0

/-- A fresh sketch's cells are all zero. -/
theorem new_cell_zero (d w i j : ℕ) :
    getCell (CountMinSketch.new d w).counters i j = 0 := by
  show getCell (List.replicate d (List.replicate w 0)) i j = 0
  rw [getCell, List.getD_eq_getElem?_getD (List.replicate d (List.replicate w 0)) i [],
    List.getElem?_replicate]
  by_cases hi : i < d
  · rw [if_pos hi, Option.getD_some, List.getD_eq_getElem?_getD,
      List.getElem?_replicate]
    by_cases hj : j < w
    · rw [if_pos hj, Option.getD_some]
    · rw [if_neg hj, Option.getD_none]
  · rw [if_neg hi, Option.getD_none]
    rfl

/-! ### Lemmas about the Bloom filter -/

/-- Every drawn index is below the bit-array length (length ≥ 1). -/
theorem bfDraws_lt (h : ℕ × ℕ) (len k : ℕ) (hlen : 1 ≤ len) :
    ∀ i ∈ bfDraws h len k, i < len := by
  intro i hi
  rw [bfDraws, List.mem_map] at hi
  obtain ⟨j, -, rfl⟩ := hi
  exact Nat.mod_lt _ (by omega)

/-- Setting a bit true never clears a set bit. -/
theorem getD_set_true (bs : List Bool) (i p : ℕ)
    (h : bs.getD p false = true) : (bs.set i true).getD p false = true := by
  rw [getD_set_eval]
  split_ifs with hc
  · rfl
  · exact h

/-- The insert loop preserves the bit-array length. -/
theorem foldl_setTrue_len :
    ∀ (L : List ℕ) (bs : List Bool),
      (L.foldl (fun a i => a.set i true) bs).length = bs.length := by
  intro L
  induction L with
  | nil => intro bs; rfl
  | cons q L ih =>
    intro bs
    rw [List.foldl_cons, ih, List.length_set]

/-- The insert loop preserves set bits. -/
theorem foldl_setTrue_mono :
    ∀ (L : List ℕ) (bs : List Bool) (p : ℕ), bs.getD p false = true →
      (L.foldl (fun a i => a.set i true) bs).getD p false = true := by
  intro L
  induction L with
  | nil => intro bs p h; exact h
  | cons q L ih =>
    intro bs p h
    rw [List.foldl_cons]
    exact ih _ p (getD_set_true bs q p h)

/-- The insert loop sets every in-range index it visits. -/
theorem foldl_setTrue_sets :
    ∀ (L : List ℕ) (bs : List Bool) (p : ℕ), p ∈ L → p < bs.length →
      (L.foldl (fun a i => a.set i true) bs).getD p false = true := by
  intro L
  induction L with
  | nil => intro bs p hp; cases hp
  | cons q L ih =>
    intro bs p hp hplen
    rw [List.foldl_cons]
    rcases List.mem_cons.mp hp with rfl | hp
    · apply foldl_setTrue_mono
      rw [getD_set_eval, if_pos ⟨rfl, hplen⟩]
    · exact ih _ p hp (by rw [List.length_set]; exact hplen)

/-- `insert` preserves `k`. -/
theorem bf_insert_k {α : Type} (hash : α → ℕ × ℕ) (b : BloomFilter) (e : α) :
    (b.insert hash e).k = b.k := rfl

/-- `insert` preserves the bit-array length. -/
theorem bf_insert_len {α : Type} (hash : α → ℕ × ℕ) (b : BloomFilter) (e : α) :
    (b.insert hash e).bits.length = b.bits.length :=
  foldl_setTrue_len _ _

/-- `insert e` sets every bit drawn for `e`. -/
theorem bf_insert_sets {α : Type} (hash : α → ℕ × ℕ) (b : BloomFilter) (e : α)
    (hlen : 1 ≤ b.bits.length) :
    ∀ p ∈ bfDraws (hash e) b.bits.length b.k,
      (b.insert hash e).bits.getD p false = true := by
  intro p hp
  exact foldl_setTrue_sets _ _ p hp (bfDraws_lt _ _ _ hlen p hp)

/-- `insert` never clears a set bit. -/
theorem bf_insert_mono {α : Type} (hash : α → ℕ × ℕ) (b : BloomFilter) (e : α)
    (p : ℕ) (h : b.bits.getD p false = true) :
    (b.insert hash e).bits.getD p false = true :=
  foldl_setTrue_mono _ _ p h

/-- `merge` preserves `k`. -/
theorem bf_merge_k (s o : BloomFilter) : (s.merge o).1.k = s.k := rfl

/-- `merge` with an equal-length filter preserves the bit-array length. -/
theorem bf_merge_len (s o : BloomFilter) (hl : o.bits.length = s.bits.length) :
    (s.merge o).1.bits.length = s.bits.length := by
  show (List.zipWith (fun x y => x || y) s.bits o.bits).length = s.bits.length
  rw [List.length_zipWith, hl]
  exact min_self _

/-- In-range bits of a merge are the disjunction of the operands' bits. -/
theorem bf_merge_getD (s o : BloomFilter) (hl : o.bits.length = s.bits.length)
    (p : ℕ) (hp : p < s.bits.length) :
    (s.merge o).1.bits.getD p false
      = (s.bits.getD p false || o.bits.getD p false) := by
  show (List.zipWith (fun x y => x || y) s.bits o.bits).getD p false = _
  exact getD_zipWith_eval _ false s.bits o.bits p hl.symm hp

/-- `merge` never clears a set bit. -/
theorem bf_merge_mono (s o : BloomFilter) (hl : o.bits.length = s.bits.length)
    (p : ℕ) (h : s.bits.getD p false = true) :
    (s.merge o).1.bits.getD p false = true := by
  by_cases hp : p < s.bits.length
  · rw [bf_merge_getD s o hl p hp, h, Bool.true_or]
  · rw [getD_eq_default _ _ _ (le_of_not_lt hp)] at h
    cases h

/-- Operation sequences preserve `k`. -/
theorem bf_applyOps_k {α : Type} (hash : α → ℕ × ℕ) (ops : List (BFOp α)) :
    ∀ b : BloomFilter, (b.applyOps hash ops).k = b.k := by
  induction ops with
  | nil => intro b; rfl
  | cons op ops ih =>
    intro b
    cases op with
    | ins e =>
      rw [BloomFilter.applyOps, ih]
      rfl
    | mer o =>
      rw [BloomFilter.applyOps, ih]
      rfl

/-- Operation sequences whose merges have matching lengths preserve the
bit-array length. -/
theorem bf_applyOps_len {α : Type} (hash : α → ℕ × ℕ) (ops : List (BFOp α)) :
    ∀ b : BloomFilter,
      (∀ o : BloomFilter, BFOp.mer o ∈ ops → o.bits.length = b.bits.length) →
      (b.applyOps hash ops).bits.length = b.bits.length := by
  induction ops with
  | nil => intro b _; rfl
  | cons op ops ih =>
    intro b hops
    cases op with
    | ins e =>
      have h2 : ∀ o : BloomFilter, BFOp.mer o ∈ ops →
          o.bits.length = (b.insert hash e).bits.length := by
        intro o ho
        rw [bf_insert_len]
        exact hops o (List.mem_cons_of_mem _ ho)
      rw [BloomFilter.applyOps, ih _ h2, bf_insert_len]
    | mer o =>
      have hlo : o.bits.length = b.bits.length := hops o (List.mem_cons_self _ _)
      have h2 : ∀ oq : BloomFilter, BFOp.mer oq ∈ ops →
          oq.bits.length = (b.merge o).1.bits.length := by
        intro oq hoq
        rw [bf_merge_len b o hlo]
        exact hops oq (List.mem_cons_of_mem _ hoq)
      rw [BloomFilter.applyOps, ih _ h2, bf_merge_len b o hlo]

/-- Operation sequences whose merges have matching lengths never clear a
set bit. -/
theorem bf_applyOps_mono {α : Type} (hash : α → ℕ × ℕ) (ops : List (BFOp α)) :
    ∀ b : BloomFilter,
      (∀ o : BloomFilter, BFOp.mer o ∈ ops → o.bits.length = b.bits.length) →
      ∀ p, b.bits.getD p false = true →
        (b.applyOps hash ops).bits.getD p false = true := by
  induction ops with
  | nil => intro b _ p h; exact h
  | cons op ops ih =>
    intro b hops p h
    cases op with
    | ins e =>
      have h2 : ∀ o : BloomFilter, BFOp.mer o ∈ ops →
          o.bits.length = (b.insert hash e).bits.length := by
        intro o ho
        rw [bf_insert_len]
        exact hops o (List.mem_cons_of_mem _ ho)
      rw [BloomFilter.applyOps]
      exact ih _ h2 p (bf_insert_mono hash b e p h)
    | mer o =>
      have hlo : o.bits.length = b.bits.length := hops o (List.mem_cons_self _ _)
      have h2 : ∀ oq : BloomFilter, BFOp.mer oq ∈ ops →
          oq.bits.length = (b.merge o).1.bits.length := by
        intro oq hoq
        rw [bf_merge_len b o hlo]
        exact hops oq (List.mem_cons_of_mem _ hoq)
      rw [BloomFilter.applyOps]
      exact ih _ h2 p (bf_merge_mono b o hlo p h)

/-- `contains` answers true as soon as all drawn bits are set. -/
theorem bf_contains_of_all {α : Type} (hash : α → ℕ × ℕ) (b : BloomFilter)
    (e : α)
    (h : ∀ p ∈ bfDraws (hash e) b.bits.length b.k, b.bits.getD p false = true) :
    b.contains hash e = true := by
  rw [BloomFilter.contains, List.all_eq_true]
  exact h

/-- Union of a bit array with itself changes nothing. -/
theorem zipWith_or_self (l : List Bool) :
    List.zipWith (fun x y => x || y) l l = l := by
  induction l with
  | nil => rfl
  | cons x xs ih =>
    rw [List.zipWith_cons_cons, Bool.or_self, ih]

/-- The union differs from the receiver exactly when some bit flips from
false to true. -/
theorem union_ne_iff :
    ∀ l1 l2 : List Bool, l1.length = l2.length →
      (List.zipWith (fun x y => x || y) l1 l2 ≠ l1 ↔
        ∃ p, p < l1.length ∧ l1.getD p false = false ∧ l2.getD p false = true) := by
  intro l1
  induction l1 with
  | nil =>
    intro l2 hlen
    constructor
    · intro h
      exact absurd rfl h
    · rintro ⟨p, hp, -, -⟩
      exact absurd hp (Nat.not_lt_zero p)
  | cons x xs ih =>
    intro l2 hlen
    cases l2 with
    | nil => cases hlen
    | cons y ys =>
      have hlen' : xs.length = ys.length := by
        simpa using hlen
      rw [List.zipWith_cons_cons]
      constructor
      · intro h
        by_cases hxy : (x || y) = x
        · have htail : List.zipWith (fun a b => a || b) xs ys ≠ xs := by
            intro ht
            exact h (by rw [hxy, ht])
          obtain ⟨p, hp, h1, h2⟩ := (ih ys hlen').mp htail
          refine ⟨p + 1, by simp [List.length_cons]; omega, ?_, ?_⟩
          · rw [List.getD_cons_succ]
            exact h1
          · rw [List.getD_cons_succ]
            exact h2
        · have hx : x = false := by
            cases x
            · rfl
            · cases y <;> simp at hxy
          have hy : y = true := by
            cases y
            · rw [hx] at hxy
              simp at hxy
            · rfl
          exact ⟨0, Nat.succ_pos _, by rw [List.getD_cons_zero, hx], by rw [List.getD_cons_zero, hy]⟩
      · rintro ⟨p, hp, h1, h2⟩
        cases p with
        | zero =>
          rw [List.getD_cons_zero] at h1 h2
          rw [h1] at *
          rw [h2]
          intro hcon
          simp at hcon
        | succ q =>
          have hq : q < xs.length := by
            simp [List.length_cons] at hp
            omega
          rw [List.getD_cons_succ] at h1 h2
          have htail : List.zipWith (fun a b => a || b) xs ys ≠ xs :=
            (ih ys hlen').mpr ⟨q, hq, h1, h2⟩
          intro hcon
          injection hcon with hh ht
          exact htail ht

/-! ### Arithmetic lemma for the Count-Mean-Min estimator -/

/-- When no underflow occurs and the minuend is a genuine `u64` value,
wrapping subtraction agrees with plain (hence saturating) subtraction. -/
theorem wsub_eq_sub (a b : ℕ) (hb : b ≤ a) (ha : a < U64) : wsub a b = a - b := by
  have hbu : b < U64 := lt_of_le_of_lt hb ha
  rw [wsub, Nat.mod_eq_of_lt ha, Nat.mod_eq_of_lt hbu]
  have h1 : a + (U64 - b) = a - b + U64 := by omega
  rw [h1, Nat.add_mod_right, Nat.mod_eq_of_lt (by omega)]

/-! ### Lemmas for merge (C6) -/

/-- Rows of a well-shaped matrix have length `w`. -/
theorem row_length {d w : ℕ} {m : List (List ℕ)} (hs : SameShape d w m)
    (i : ℕ) (hi : i < d) : (m.getD i []).length = w := by
  have hi' : i < m.length := by
    have := hs.1
    omega
  rw [List.getD_eq_getElem m [] hi']
  exact hs.2 _ (List.getElem_mem hi')

/-- In-range cells of a sketch merge are the sums of the operands' cells. -/
theorem merge_cell {d w : ℕ} (s o : CountMinSketch)
    (hs : SameShape d w s.counters) (ho : SameShape d w o.counters)
    (i j : ℕ) (hi : i < d) (hj : j < w) :
    getCell (s.merge o).counters i j
      = getCell s.counters i j + getCell o.counters i j := by
  have hi' : i < s.counters.length := by
    have := hs.1
    omega
  have hrow1 : (s.counters.getD i []).length = w := row_length hs i hi
  have hrow2 : (o.counters.getD i []).length = w := row_length ho i hi
  show getCell (List.zipWith (fun r1 r2 => List.zipWith (fun a b => a + b) r1 r2)
    s.counters o.counters) i j = _
  rw [getCell,
    getD_zipWith_eval _ [] s.counters o.counters i (by rw [hs.1, ho.1]) hi',
    getD_zipWith_eval _ 0 _ _ j (by rw [hrow1, hrow2]) (by rw [hrow1]; exact hj)]
  rfl

/-! ### Lemmas for the Bloom parameter search (C4) -/

set_option maxHeartbeats 1600000 in
/-- Every reachable table row starts with probability 1. -/
theorem probs_head_one (b : ℕ) (h2 : 2 ≤ b) (h15 : b ≤ 15) : probsAt b 0 = 1 := by
  interval_cases b <;> norm_num [probsAt, PROBS]

set_option maxHeartbeats 1600000 in
/-- The row-optimal draw count of every reachable row lies in `[1, 10]`. -/
theorem optK_bounds (b : ℕ) (h2 : 2 ≤ b) (h15 : b ≤ 15) :
    1 ≤ optK b ∧ optK b ≤ 10 := by
  interval_cases b <;> norm_num [optK, OPT_K]

/-- The buckets-search loop, run in the branch where it stops by row 15:
buckets stay in `[2, 15]` and the accompanying k is the row optimum. -/
theorem findLoop_spec (p : ℚ) (hstop : ¬ probsAt 15 (optK 15) > p) :
    ∀ fuel b : ℕ, 2 ≤ b → b ≤ 15 → 15 - b ≤ fuel →
      2 ≤ (findLoop p fuel b (optK b)).1 ∧ (findLoop p fuel b (optK b)).1 ≤ 15 ∧
      (findLoop p fuel b (optK b)).2 = optK (findLoop p fuel b (optK b)).1 := by
  intro fuel
  induction fuel with
  | zero =>
    intro b h2 h15 hf
    have hb : b = 15 := by omega
    subst hb
    refine ⟨by simp [findLoop], by simp [findLoop], by simp [findLoop]⟩
  | succ f ih =>
    intro b h2 h15 hf
    rw [findLoop]
    by_cases hg : probsAt b (optK b) > p
    · rw [if_pos hg]
      have hb15 : b ≠ 15 := by
        intro hb
        subst hb
        exact hstop hg
      exact ih (b + 1) (by omega) (by omega) (by omega)
    · rw [if_neg hg]
      exact ⟨h2, h15, rfl⟩

/-- The k-relaxation loop keeps k in `[1, k₀]` whenever the row head
exceeds `p`. -/
theorem relaxK_spec (p : ℚ) (b : ℕ) (hp1 : p < probsAt b 0) :
    ∀ k : ℕ, 1 ≤ k → 1 ≤ relaxK p b k ∧ relaxK p b k ≤ k := by
  intro k
  induction k with
  | zero =>
    intro h
    exact absurd h (by omega)
  | succ q ih =>
    intro _
    rw [relaxK]
    by_cases hg : probsAt b q ≤ p
    · rw [if_pos hg]
      cases q with
      | zero => exact absurd hg (not_le_of_lt hp1)
      | succ r =>
        have hr := ih (by omega)
        exact ⟨hr.1, Nat.le_succ_of_le hr.2⟩
    · rw [if_neg hg]
      exact ⟨by omega, le_refl _⟩

/-! ### Lemmas about the Top-K structure -/

/-- On a sketch of positive depth, `estimate` returns a value (the
`.unwrap()` cannot panic). -/
theorem estimate?_isSome {α : Type} (hash : α → ℕ × ℕ) (s : CountMinSketch)
    (e : α) (hd : 1 ≤ s.depth) : ∃ v, s.estimate? hash e = some v := by
  have hne : s.rowVals hash e ≠ [] := by
    intro h
    have hlen := rowVals_length hash s e
    rw [h] at hlen
    simp at hlen
    omega
  obtain ⟨m, hm, -, -⟩ := iterMin_spec _ hne
  exact ⟨m, hm⟩

/-- On a sketch of positive depth, `is_top` returns a value. -/
theorem isTop?_isSome {α : Type} (hash : α → ℕ × ℕ) (t : TopK α) (e : α)
    (hd : 1 ≤ t.cms.depth) : ∃ b, t.isTop? hash e = some b := by
  obtain ⟨v, hv⟩ := estimate?_isSome hash t.cms e hd
  refine ⟨decide ((v : ℚ) / (t.n : ℚ) > t.min), ?_⟩
  rw [TopK.isTop?, hv]
  rfl

/-- The `elements()` filter pass succeeds on a positive-depth sketch and
keeps only candidates that still pass `is_top`. -/
theorem filterTop?_spec {α : Type} (hash : α → ℕ × ℕ) (t : TopK α)
    (hd : 1 ≤ t.cms.depth) :
    ∀ l : List α, ∃ fl, t.filterTop? hash l = some fl ∧
      ∀ x ∈ fl, x ∈ l ∧ t.isTop? hash x = some true := by
  intro l
  induction l with
  | nil =>
    refine ⟨[], rfl, ?_⟩
    intro x hx
    cases hx
  | cons a l ih =>
    obtain ⟨fl, hfl, hmem⟩ := ih
    obtain ⟨b, hb⟩ := isTop?_isSome hash t a hd
    refine ⟨if b then a :: fl else fl, ?_, ?_⟩
    · simp only [TopK.filterTop?, hb, hfl]
    · intro x hx
      cases b with
      | true =>
        simp only [if_true] at hx
        rcases List.mem_cons.mp hx with rfl | hx
        · exact ⟨List.mem_cons_self _ _, hb⟩
        · obtain ⟨h1, h2⟩ := hmem x hx
          exact ⟨List.mem_cons_of_mem _ h1, h2⟩
      | false =>
        simp only [Bool.false_eq_true, if_false] at hx
        obtain ⟨h1, h2⟩ := hmem x hx
        exact ⟨List.mem_cons_of_mem _ h1, h2⟩

/-- `elements()` succeeds on a positive-depth sketch: at most `k` entries,
each a candidate that still passes `is_top`. -/
theorem elementsList?_spec {α : Type} (hash : α → ℕ × ℕ) (t : TopK α)
    (hd : 1 ≤ t.cms.depth) :
    ∃ l, t.elementsList? hash = some l ∧ l.length ≤ t.k ∧
      ∀ x ∈ l, x ∈ t.elements ∧ t.isTop? hash x = some true := by
  obtain ⟨fl, hfl, hmem⟩ := filterTop?_spec hash t hd t.elements
  refine ⟨(sortBy (fun a b => decide (t.estKey hash b ≤ t.estKey hash a)) fl).take t.k,
    ?_, ?_, ?_⟩
  · rw [TopK.elementsList?, hfl]
    rfl
  · rw [List.length_take]
    exact min_le_left _ _
  · intro x hx
    have hx2 : x ∈ sortBy (fun a b => decide (t.estKey hash b ≤ t.estKey hash a)) fl :=
      List.mem_of_mem_take hx
    exact hmem x ((mem_sortBy _ x fl).mp hx2)

/-! ## Claim theorems -/

/-- C1: for every Count-Min Sketch with depth ≥ 1 and width ≥ 1 and every
element `e`, `estimate e` returns the minimum over the `depth` row counters
selected by `e`'s index draws (one draw per row, each bounded by `width`),
and after any sequence of insert/insert_n operations this value is at
least the true total count inserted for `e`, never below it. -/
theorem C1_estimate_lower_bound {α : Type} [DecidableEq α] (hash : α → ℕ × ℕ)
    (d w : ℕ) (hd : 1 ≤ d) (hw : 1 ≤ w) (ops : List (CMSOp α)) (e : α) :
    ∃ m, ((CountMinSketch.new d w).applyOps hash ops).estimate? hash e = some m ∧
      m ∈ ((CountMinSketch.new d w).applyOps hash ops).rowVals hash e ∧
      (∀ x ∈ ((CountMinSketch.new d w).applyOps hash ops).rowVals hash e, m ≤ x) ∧
      (((CountMinSketch.new d w).applyOps hash ops).rowVals hash e).length = d ∧
      (∀ i, colOf (hash e) w i < w) ∧
      trueCount e ops ≤ m := by
  have hdepth : ((CountMinSketch.new d w).applyOps hash ops).depth = d :=
    applyOps_depth hash ops _
  have hwidth : ((CountMinSketch.new d w).applyOps hash ops).width = w :=
    applyOps_width hash ops _
  have hlen : (((CountMinSketch.new d w).applyOps hash ops).rowVals hash e).length = d := by
    rw [rowVals_length, hdepth]
  have hne : ((CountMinSketch.new d w).applyOps hash ops).rowVals hash e ≠ [] := by
    intro h
    rw [h] at hlen
    simp at hlen
    omega
  obtain ⟨m, hm, hmem, hle⟩ := iterMin_spec _ hne
  have hlow : ∀ x ∈ ((CountMinSketch.new d w).applyOps hash ops).rowVals hash e,
      trueCount e ops ≤ x := by
    intro x hx
    rw [CountMinSketch.rowVals, List.mem_map] at hx
    obtain ⟨i, hi, rfl⟩ := hx
    rw [List.mem_range, hdepth] at hi
    have hcell := applyOps_cell_lower hash e ops (CountMinSketch.new d w)
      (new_shape d w) hw i hi
    have hnw : (CountMinSketch.new d w).width = w := rfl
    simp only [hnw, new_cell_zero, Nat.zero_add] at hcell
    simp only [hwidth]
    exact hcell
  exact ⟨m, hm, hmem, hle, hlen, fun i => colOf_lt (hash e) w i hw, hlow m hmem⟩

/-- C1 witness: a fresh 1 by 1 sketch, one insert_n of element 7 with
count 2; the estimate exists and is at least the true count. -/
theorem C1_witness :
    ∃ m, ((CountMinSketch.new 1 1).applyOps (fun _ : ℕ => (0, 1))
        [CMSOp.insertN 7 2]).estimate? (fun _ : ℕ => (0, 1)) 7 = some m ∧
      trueCount 7 [CMSOp.insertN 7 2] ≤ m := by
  obtain ⟨m, h1, -, -, -, -, h6⟩ :=
    C1_estimate_lower_bound (fun _ : ℕ => (0, 1)) 1 1 (by decide) (by decide)
      [CMSOp.insertN 7 2] 7
  exact ⟨m, h1, h6⟩

/-- C2: once `insert e` has been called on a Bloom filter (nonempty bit
array), `contains e` returns true, and it remains true after any further
sequence of insert and parameter-matching merge operations, because no
operation ever clears a set bit (the bit array is monotone). -/
theorem C2_no_false_negatives {α : Type} (hash : α → ℕ × ℕ) (b : BloomFilter)
    (e : α) (hlen : 1 ≤ b.bits.length) (ops : List (BFOp α))
    (hops : ∀ o : BloomFilter, BFOp.mer o ∈ ops → o.bits.length = b.bits.length) :
    (((b.insert hash e).applyOps hash ops).contains hash e = true) ∧
    (∀ p, b.bits.getD p false = true →
      ((b.insert hash e).applyOps hash ops).bits.getD p false = true) := by
  have hlen1 : (b.insert hash e).bits.length = b.bits.length := bf_insert_len hash b e
  have hops1 : ∀ o : BloomFilter, BFOp.mer o ∈ ops →
      o.bits.length = (b.insert hash e).bits.length := by
    intro o ho
    rw [hlen1]
    exact hops o ho
  have hlen2 : ((b.insert hash e).applyOps hash ops).bits.length = b.bits.length := by
    rw [bf_applyOps_len hash ops _ hops1, hlen1]
  have hk : ((b.insert hash e).applyOps hash ops).k = b.k := by
    rw [bf_applyOps_k, bf_insert_k]
  constructor
  · apply bf_contains_of_all
    intro p hp
    rw [hlen2, hk] at hp
    exact bf_applyOps_mono hash ops _ hops1 p (bf_insert_sets hash b e hlen p hp)
  · intro p hpt
    exact bf_applyOps_mono hash ops _ hops1 p (bf_insert_mono hash b e p hpt)

/-- C2 witness: a 3-bit filter with one draw; after inserting element 0,
`contains 0` is true. -/
theorem C2_witness :
    (((BloomFilter.mk 1 [false, false, false]).insert (fun _ : ℕ => (2, 3)) 0).applyOps
      (fun _ : ℕ => (2, 3)) []).contains (fun _ : ℕ => (2, 3)) 0 = true := by
  have h := C2_no_false_negatives (fun _ : ℕ => (2, 3))
    (BloomFilter.mk 1 [false, false, false]) 0 (by decide) []
    (fun o ho => absurd ho (List.not_mem_nil _))
  exact h.1

/-- C3: for every element (its two 64-bit hashes) and every max ≥ 1, the
generator's `next` never returns none, and the n-th draw (n ≥ 1) equals
(h1 + n·h2) mod 2^64 mod max - wrapping addition and multiplication over
the hashes fixed at construction - and lies in `[0, max)`. -/
theorem C3_index_generator (h1 h2 max n : ℕ) (hh1 : h1 < 2 ^ 64)
    (hh2 : h2 < 2 ^ 64) (hmax : 1 ≤ max) (hn : 1 ≤ n) :
    (∀ g : Index, ∃ v, (Index.next g).1 = some v) ∧
    (indexes h1 h2 max).nthDraw n = some (((h1 + n * h2) % 2 ^ 64) % max) ∧
    ((h1 + n * h2) % 2 ^ 64) % max < max := by
  refine ⟨fun g => ⟨_, rfl⟩, ?_, Nat.mod_lt _ (by omega)⟩
  rw [nthDraw_indexes h1 h2 max n hn]
  simp only [drawAt, U64]
  rw [Nat.add_mod_mod]

/-- C3 witness: hashes 3 and 5, bound 7, second draw. -/
theorem C3_witness :
    (indexes 3 5 7).nthDraw 2 = some (((3 + 2 * 5) % 2 ^ 64) % 7) :=
  (C3_index_generator 3 5 7 2 (by norm_num) (by norm_num) (by norm_num)
    (by norm_num)).2.1

/-- C10: a filter built by `new` has bit length n·buckets + 20 (≥ 20,
never zero), and after any parameter-matching operation sequence every
index drawn during insert and contains is strictly below the bit-array
length, so the `bits.get(i).unwrap()` in contains cannot panic and the
`bits.set(i, true)` in insert is in-bounds: both operations are total. -/
theorem C10_draws_in_bounds {α : Type} (hash : α → ℕ × ℕ) (n : ℕ) (p : ℚ)
    (ops : List (BFOp α))
    (hops : ∀ o : BloomFilter, BFOp.mer o ∈ ops →
      o.bits.length = (BloomFilter.new n p).bits.length) :
    ((BloomFilter.new n p).applyOps hash ops).bits.length
        = n * (bestBucketsAndK p).1 + 20 ∧
    20 ≤ ((BloomFilter.new n p).applyOps hash ops).bits.length ∧
    (∀ e : α, ∀ i ∈ bfDraws (hash e)
        ((BloomFilter.new n p).applyOps hash ops).bits.length
        ((BloomFilter.new n p).applyOps hash ops).k,
      i < ((BloomFilter.new n p).applyOps hash ops).bits.length ∧
      ((((BloomFilter.new n p).applyOps hash ops).bits.get? i).isSome = true)) := by
  have hnew : (BloomFilter.new n p).bits.length = n * (bestBucketsAndK p).1 + 20 :=
    List.length_replicate _ _
  have hlen : ((BloomFilter.new n p).applyOps hash ops).bits.length
      = n * (bestBucketsAndK p).1 + 20 := by
    rw [bf_applyOps_len hash ops _ hops, hnew]
  refine ⟨hlen, by rw [hlen]; exact Nat.le_add_left 20 _, ?_⟩
  intro e i hi
  have hpos : 1 ≤ ((BloomFilter.new n p).applyOps hash ops).bits.length := by
    rw [hlen]
    omega
  have hlt := bfDraws_lt (hash e) _ _ hpos i hi
  refine ⟨hlt, ?_⟩
  rw [List.get?_eq_get hlt]
  rfl

/-- C10 witness: a filter for 0 expected elements still has 20 bits. -/
theorem C10_witness :
    20 ≤ ((BloomFilter.new 0 1).applyOps (fun _ : ℕ => (0, 0)) []).bits.length :=
  (C10_draws_in_bounds (fun _ : ℕ => (0, 0)) 0 1 []
    (fun o ho => absurd ho (List.not_mem_nil _))).2.1

set_option maxHeartbeats 2000000 in
/-- C4 counterexample: at probability 10^-6, below the table floor
`PROBS[15][8]`, the search returns the source's literally swapped pair
`(MAX_K, MAX_BUCKETS) = (8, 15)`, so the draw count is 15, not in [1, 8]. -/
theorem C4_counterexample :
    bestBucketsAndK (1 / 1000000) = (8, 15) ∧
    ¬ (bestBucketsAndK (1 / 1000000)).2 ≤ 8 := by
  have h : bestBucketsAndK (1 / 1000000) = (8, 15) := by
    rw [bestBucketsAndK]
    norm_num [probsAt, PROBS, optK, OPT_K, MIN_BUCKETS, MIN_K, MAX_BUCKETS, MAX_K]
  refine ⟨h, ?_⟩
  rw [h]
  decide

set_option maxHeartbeats 4000000 in
/-- C4 amended: for every probability the search returns buckets in
[2, 15] and k in [1, 15] - not [1, 8]: below the table floor it returns
the swapped pair (8, 15) (so k = 15), and on the table-search path the
row-optimal k can reach 9 or 10 before relaxation (e.g. p = 0.00125
yields (14, 9)); requests outside the table's range saturate rather than
fail. -/
theorem C4_parameter_bounds (p : ℚ) :
    2 ≤ (bestBucketsAndK p).1 ∧ (bestBucketsAndK p).1 ≤ 15 ∧
    1 ≤ (bestBucketsAndK p).2 ∧ (bestBucketsAndK p).2 ≤ 15 ∧
    (p < probsAt MAX_BUCKETS MAX_K → bestBucketsAndK p = (8, 15)) ∧
    bestBucketsAndK (125 / 100000) = (14, 9) := by
  have h14 : bestBucketsAndK (125 / 100000) = (14, 9) := by
    rw [bestBucketsAndK]
    norm_num [probsAt, PROBS, optK, OPT_K, MIN_BUCKETS, MIN_K, MAX_BUCKETS, MAX_K,
      findLoop, relaxK]
  have hminmax : probsAt MAX_BUCKETS MAX_K < probsAt MIN_BUCKETS MIN_K := by
    norm_num [probsAt, PROBS, MIN_BUCKETS, MIN_K, MAX_BUCKETS, MAX_K]
  rw [bestBucketsAndK]
  by_cases hb1 : p ≥ probsAt MIN_BUCKETS MIN_K
  · rw [if_pos hb1]
    have hk2 : optK 2 = 1 := by norm_num [optK, OPT_K]
    refine ⟨by norm_num, by norm_num, ?_, ?_, ?_, h14⟩
    · show 1 ≤ optK 2
      omega
    · show optK 2 ≤ 15
      omega
    · intro hlow
      exfalso
      have : p < probsAt MIN_BUCKETS MIN_K := lt_trans hlow hminmax
      linarith
  · rw [if_neg hb1]
    have hb1' : p < probsAt MIN_BUCKETS MIN_K := lt_of_not_ge hb1
    by_cases hb2 : p < probsAt MAX_BUCKETS MAX_K
    · rw [if_pos hb2]
      exact ⟨by norm_num [MAX_K], by norm_num [MAX_K], by norm_num [MAX_BUCKETS],
        by norm_num [MAX_BUCKETS], fun _ => by norm_num [MAX_K, MAX_BUCKETS], h14⟩
    · rw [if_neg hb2]
      have hb2' : probsAt MAX_BUCKETS MAX_K ≤ p := le_of_not_lt hb2
      have hstop : ¬ probsAt 15 (optK 15) > p := by
        have hc : probsAt 15 (optK 15) ≤ probsAt MAX_BUCKETS MAX_K := by
          norm_num [probsAt, PROBS, optK, OPT_K, MAX_BUCKETS, MAX_K]
        push_neg
        linarith
      obtain ⟨hf1, hf2, hf3⟩ := findLoop_spec p hstop 19 2 (by omega) (by omega) (by omega)
      have hhead : p < probsAt (findLoop p 19 2 (optK 2)).1 0 := by
        rw [probs_head_one _ hf1 hf2]
        have h393 : probsAt MIN_BUCKETS MIN_K < 1 := by
          norm_num [probsAt, PROBS, MIN_BUCKETS, MIN_K]
        linarith
      have hoptb := optK_bounds _ hf1 hf2
      have hrel := relaxK_spec p _ hhead (findLoop p 19 2 (optK 2)).2
        (by rw [hf3]; exact hoptb.1)
      refine ⟨hf1, hf2, hrel.1, ?_, ?_, h14⟩
      · have h1 := hrel.2
        have h2 : (findLoop p 19 2 (optK 2)).2 ≤ 10 := by
          rw [hf3]
          exact hoptb.2
        show relaxK p (findLoop p 19 2 (optK 2)).1 (findLoop p 19 2 (optK 2)).2 ≤ 15
        omega
      · intro hlow
        exact absurd hlow (not_lt_of_le hb2')

/-- C5 counterexample: width 2, one row; five units of a colliding-free
other element make the total 5 while the queried element's row value is 0,
so the noise term is 5 and the source's `u64` subtraction wraps to
2^64 - 5 instead of saturating to 0 as the claim states. -/
theorem C5_counterexample :
    ((CountMinSketch.new 1 2).insertN (fun x : ℕ => (x % 2, 0)) 1 5).estimateMean
      (fun x : ℕ => (x % 2, 0)) 0 5 = 18446744073709551611 ∧
    ((CountMinSketch.new 1 2).insertN (fun x : ℕ => (x % 2, 0)) 1 5).estimateMeanSat
      (fun x : ℕ => (x % 2, 0)) 0 5 = 0 ∧
    ((CountMinSketch.new 1 2).insertN (fun x : ℕ => (x % 2, 0)) 1 5).estimateMean
        (fun x : ℕ => (x % 2, 0)) 0 5
      ≠ ((CountMinSketch.new 1 2).insertN (fun x : ℕ => (x % 2, 0)) 1 5).estimateMeanSat
        (fun x : ℕ => (x % 2, 0)) 0 5 := by
  refine ⟨by decide, by decide, by decide⟩

/-- C5 amended: for depth ≥ 1 and width ≥ 2, `estimate_mean` subtracts the
noise term `(total_n - row_value) / (width - 1)` from each row counter
using plain `u64` subtraction, which wraps modulo 2^64 on underflow
(panics in debug builds) - it does not saturate; when no subtraction
underflows (each row value is at most `total_n`, the noise term at most
the row value, and `total_n` a genuine `u64`), the result agrees with the
saturating reading, and the median-of-rows structure is as described. -/
theorem C5_estimate_mean_wrapping {α : Type} (hash : α → ℕ × ℕ)
    (s : CountMinSketch) (e : α) (n : ℕ) (hd : 1 ≤ s.depth) (hw : 2 ≤ s.width)
    (hn : n < 2 ^ 64)
    (hub : ∀ i < s.depth, getCell s.counters i (colOf (hash e) s.width i) ≤ n)
    (hnoise : ∀ i < s.depth,
      (n - getCell s.counters i (colOf (hash e) s.width i)) / (s.width - 1)
        ≤ getCell s.counters i (colOf (hash e) s.width i)) :
    s.estimateMean hash e n = s.estimateMeanSat hash e n := by
  rw [CountMinSketch.estimateMean, CountMinSketch.estimateMeanSat]
  have hmap : (List.range s.depth).map (fun i =>
        let v := getCell s.counters i (colOf (hash e) s.width i)
        let noise := wsub n v / (s.width - 1)
        wsub v noise)
      = (List.range s.depth).map (fun i =>
        let v := getCell s.counters i (colOf (hash e) s.width i)
        let noise := (n - v) / (s.width - 1)
        v - noise) := by
    apply List.map_congr_left
    intro i hi
    rw [List.mem_range] at hi
    have hv := hub i hi
    have hvU : getCell s.counters i (colOf (hash e) s.width i) < 2 ^ 64 :=
      lt_of_le_of_lt hv hn
    show wsub (getCell s.counters i (colOf (hash e) s.width i))
        (wsub n (getCell s.counters i (colOf (hash e) s.width i)) / (s.width - 1))
      = getCell s.counters i (colOf (hash e) s.width i)
        - ((n - getCell s.counters i (colOf (hash e) s.width i)) / (s.width - 1))
    rw [wsub_eq_sub n _ hv hn, wsub_eq_sub _ _ (hnoise i hi) hvU]
  rw [hmap]

/-- C5 witness: an all-zero 1 by 2 sketch with total 0 satisfies the
no-underflow hypotheses, and both readings agree there. -/
theorem C5_witness :
    (CountMinSketch.new 1 2).estimateMean (fun _ : ℕ => (0, 0)) 0 0
      = (CountMinSketch.new 1 2).estimateMeanSat (fun _ : ℕ => (0, 0)) 0 0 :=
  C5_estimate_mean_wrapping (fun _ : ℕ => (0, 0)) (CountMinSketch.new 1 2) 0 0
    (by decide) (by decide) (by decide) (by decide) (by decide)

/-- C6: merging two sketches of identical shape replaces the receiver's
counters with the element-wise sums; merging two filters with identical
parameters replaces the bits with the bitwise union and returns whether
any bit flipped from 0 to 1 - in particular merging with a filter whose
bits are identical changes nothing and returns false. -/
theorem C6_merge_correctness (d w : ℕ) (s o : CountMinSketch)
    (hs : SameShape d w s.counters) (ho : SameShape d w o.counters)
    (bf1 bf2 : BloomFilter) (hk : bf2.k = bf1.k)
    (hl : bf2.bits.length = bf1.bits.length) :
    (∀ i < d, ∀ j < w,
      getCell (s.merge o).counters i j
        = getCell s.counters i j + getCell o.counters i j) ∧
    ((bf1.merge bf2).1.bits = List.zipWith (fun x y => x || y) bf1.bits bf2.bits) ∧
    (((bf1.merge bf2).2 = true) ↔
      ∃ p, p < bf1.bits.length ∧ bf1.bits.getD p false = false ∧
        bf2.bits.getD p false = true) ∧
    (bf2.bits = bf1.bits →
      (bf1.merge bf2).1.bits = bf1.bits ∧ (bf1.merge bf2).2 = false) := by
  refine ⟨fun i hi j hj => merge_cell s o hs ho i j hi hj, rfl, ?_, ?_⟩
  · show (decide (List.zipWith (fun x y => x || y) bf1.bits bf2.bits ≠ bf1.bits) = true) ↔ _
    rw [decide_eq_true_iff]
    exact union_ne_iff bf1.bits bf2.bits hl.symm
  · intro hbb
    have hz : List.zipWith (fun x y => x || y) bf1.bits bf2.bits = bf1.bits := by
      rw [hbb, zipWith_or_self]
    constructor
    · exact hz
    · show decide (List.zipWith (fun x y => x || y) bf1.bits bf2.bits ≠ bf1.bits) = false
      rw [decide_eq_false_iff_not]
      intro hne
      exact hne hz

/-- C6 witness: 1 by 1 sketches holding 3 and 4 merge to 7; a filter
merged with an identical-bits filter reports no change. -/
theorem C6_witness :
    getCell ((CountMinSketch.mk 1 1 [[3]]).merge (CountMinSketch.mk 1 1 [[4]])).counters 0 0
        = 7 ∧
    ((BloomFilter.mk 1 [false, true]).merge (BloomFilter.mk 1 [false, true])).2 = false := by
  obtain ⟨h1, -, -, h4⟩ := C6_merge_correctness 1 1 (CountMinSketch.mk 1 1 [[3]])
    (CountMinSketch.mk 1 1 [[4]]) ⟨rfl, by decide⟩ ⟨rfl, by decide⟩
    (BloomFilter.mk 1 [false, true]) (BloomFilter.mk 1 [false, true]) rfl rfl
  refine ⟨?_, (h4 rfl).2⟩
  rw [h1 0 (by decide) 0 (by decide)]
  decide

set_option maxHeartbeats 2000000 in
/-- C7 counterexample: `CountMinSketch::new(0, 5)` (a zero-length
configuration) is accepted silently and returns an empty counter matrix -
no contract violation is raised at the call site; the failure surfaces
only on the later `estimate` (none models its unwrap panic).  Likewise
`TopK::new` accepts `k = 0` and the out-of-range threshold 2, and
`BloomFilter::new` accepts the out-of-range probability 2. -/
theorem C7_counterexample :
    (CountMinSketch.new 0 5).depth = 0 ∧
    (CountMinSketch.new 0 5).counters = [] ∧
    (CountMinSketch.new 0 5).estimate? (fun x : ℕ => (x, x)) 7 = none ∧
    (CountMinSketch.new 3 0).width = 0 ∧
    (TopK.new (α := ℕ) 0 2 (CountMinSketch.new 0 5)).k = 0 ∧
    (TopK.new (α := ℕ) 0 2 (CountMinSketch.new 0 5)).min = 2 ∧
    (BloomFilter.new 1 2).bits.length = 22 := by
  refine ⟨rfl, rfl, rfl, rfl, rfl, rfl, ?_⟩
  show (List.replicate (1 * (bestBucketsAndK 2).1 + 20) false).length = 22
  rw [List.length_replicate]
  have h : bestBucketsAndK 2 = (2, 1) := by
    rw [bestBucketsAndK]
    norm_num [probsAt, PROBS, optK, OPT_K, MIN_BUCKETS, MIN_K]
  rw [h]
  decide

/-- C7 amended: no constructor validates its parameters - each is total
and returns a structure carrying exactly the given (possibly degenerate)
configuration, and failures surface only on later operations, e.g.
`estimate` on a depth-0 sketch returns none (the unwrap panic). -/
theorem C7_no_validation {α : Type} (d w k n : ℕ) (mn p : ℚ)
    (cms : CountMinSketch) (e : α) (hash : α → ℕ × ℕ) :
    (CountMinSketch.new d w).depth = d ∧
    (CountMinSketch.new d w).width = w ∧
    (CountMinSketch.new d w).counters = List.replicate d (List.replicate w 0) ∧
    (TopK.new (α := α) k mn cms).k = k ∧
    (TopK.new (α := α) k mn cms).min = mn ∧
    (TopK.new (α := α) k mn cms).cms = cms ∧
    (BloomFilter.new n p).bits.length = n * (bestBucketsAndK p).1 + 20 ∧
    (CountMinSketch.new 0 w).estimate? hash e = none :=
  ⟨rfl, rfl, rfl, rfl, rfl, rfl, List.length_replicate _ _, rfl⟩

/-- C8: `TopK::insert e` inserts `e` into the underlying sketch,
increments the global counter `n` by exactly 1, then adds `e` to the
candidate set exactly when the recomputed share `estimate(e) / n` exceeds
`min` (otherwise the candidate set is unchanged); insert never removes an
element from the candidate set. -/
theorem C8_topk_insert {α : Type} [DecidableEq α] (hash : α → ℕ × ℕ)
    (t : TopK α) (e : α) (hd : 1 ≤ t.cms.depth) :
    ∃ tq v, t.insert? hash e = some tq ∧
      tq.cms = t.cms.insert hash e ∧
      tq.n = t.n + 1 ∧ tq.k = t.k ∧ tq.min = t.min ∧
      tq.cms.estimate? hash e = some v ∧
      tq.elements = (if (v : ℚ) / ((t.n + 1 : ℕ) : ℚ) > t.min then
        (if e ∈ t.elements then t.elements else e :: t.elements)
        else t.elements) ∧
      (∀ x ∈ t.elements, x ∈ tq.elements) := by
  obtain ⟨v, hv⟩ := estimate?_isSome hash (t.cms.insert hash e) e hd
  have htop : (⟨t.k, t.min, t.n + 1, t.cms.insert hash e, t.elements⟩ : TopK α).isTop?
        hash e
      = some (decide ((v : ℚ) / ((t.n + 1 : ℕ) : ℚ) > t.min)) := by
    rw [TopK.isTop?]
    show (CountMinSketch.estimate? hash (t.cms.insert hash e) e).map _ = _
    rw [hv]
    rfl
  have hins : t.insert? hash e
      = some (if decide ((v : ℚ) / ((t.n + 1 : ℕ) : ℚ) > t.min) then
          (⟨t.k, t.min, t.n + 1, t.cms.insert hash e,
            if e ∈ t.elements then t.elements else e :: t.elements⟩ : TopK α)
        else ⟨t.k, t.min, t.n + 1, t.cms.insert hash e, t.elements⟩) := by
    rw [TopK.insert?, htop]
    rfl
  by_cases hc : (v : ℚ) / ((t.n + 1 : ℕ) : ℚ) > t.min
  · rw [decide_eq_true hc, if_pos rfl] at hins
    refine ⟨⟨t.k, t.min, t.n + 1, t.cms.insert hash e,
      if e ∈ t.elements then t.elements else e :: t.elements⟩, v,
      hins, rfl, rfl, rfl, rfl, hv, ?_, ?_⟩
    · show (if e ∈ t.elements then t.elements else e :: t.elements) = _
      rw [if_pos hc]
    · intro x hx
      show x ∈ (if e ∈ t.elements then t.elements else e :: t.elements)
      by_cases hm : e ∈ t.elements
      · rw [if_pos hm]
        exact hx
      · rw [if_neg hm]
        exact List.mem_cons_of_mem e hx
  · rw [decide_eq_false hc, if_neg (by decide)] at hins
    refine ⟨⟨t.k, t.min, t.n + 1, t.cms.insert hash e, t.elements⟩, v,
      hins, rfl, rfl, rfl, rfl, hv, ?_, fun x hx => hx⟩
    show t.elements = _
    rw [if_neg hc]

/-- C8 witness: a fresh Top-K over a 1 by 1 sketch accepts an insert and
the estimate of the inserted element exists. -/
theorem C8_witness :
    ∃ tq v, (TopK.new (α := ℕ) 2 (1 / 2) (CountMinSketch.new 1 1)).insert?
        (fun _ : ℕ => (0, 0)) 5 = some tq ∧
      tq.n = 1 ∧
      tq.cms.estimate? (fun _ : ℕ => (0, 0)) 5 = some v := by
  obtain ⟨tq, v, h1, -, h3, -, -, h6, -, -⟩ :=
    C8_topk_insert (fun _ : ℕ => (0, 0))
      (TopK.new (α := ℕ) 2 (1 / 2) (CountMinSketch.new 1 1)) 5 (by decide)
  exact ⟨tq, v, h1, h3, h6⟩

/-- C9: if the candidate set has more than `k` entries, `shrink_to_fit`
replaces it with exactly the result of `elements()` - the candidates whose
share still exceeds `min` at call time, sorted by descending estimate and
truncated to `k` - leaving at most `k` entries; with at most `k` entries
the candidate set is unchanged. -/
theorem C9_shrink_to_fit {α : Type} [DecidableEq α] (hash : α → ℕ × ℕ)
    (t : TopK α) (hd : 1 ≤ t.cms.depth) :
    ∃ tq, t.shrinkToFit? hash = some tq ∧
      (t.elements.length ≤ t.k → tq = t) ∧
      (t.k < t.elements.length →
        ∃ l, t.elementsList? hash = some l ∧
          tq = ⟨t.k, t.min, t.n, t.cms, l⟩ ∧
          tq.elements.length ≤ t.k ∧
          ∀ x ∈ tq.elements, x ∈ t.elements ∧ t.isTop? hash x = some true) := by
  by_cases hgt : t.k < t.elements.length
  · obtain ⟨l, hl, hlen, hmem⟩ := elementsList?_spec hash t hd
    refine ⟨⟨t.k, t.min, t.n, t.cms, l⟩, ?_, ?_, ?_⟩
    · rw [TopK.shrinkToFit?, if_pos hgt, hl]
      rfl
    · intro hle
      exfalso
      omega
    · intro _
      exact ⟨l, hl, rfl, hlen, hmem⟩
  · refine ⟨t, ?_, fun _ => rfl, ?_⟩
    · rw [TopK.shrinkToFit?, if_neg hgt]
    · intro hgt2
      exact absurd hgt2 hgt

/-- C9 witness: a Top-K with `k = 0` and one stale candidate shrinks to at
most zero candidates. -/
theorem C9_witness :
    ∃ tq, (TopK.mk 0 (1 / 2 : ℚ) 1 (CountMinSketch.new 1 1) [(5 : ℕ)]).shrinkToFit?
        (fun _ : ℕ => (0, 0)) = some tq ∧
      tq.elements.length ≤ 0 := by
  obtain ⟨tq, h1, -, h3⟩ :=
    C9_shrink_to_fit (fun _ : ℕ => (0, 0))
      (TopK.mk 0 (1 / 2 : ℚ) 1 (CountMinSketch.new 1 1) [(5 : ℕ)]) (by decide)
  obtain ⟨l, -, -, hlen, -⟩ := h3 (by decide)
  exact ⟨tq, h1, hlen⟩

end Sketchy
